import Mathlib

/-!
Shallow embedding of the batching / collation subsystem of `src/data.py`
(classes `ESMDataset`, `ESMBatchSampler`, `ESMDataLoader`,
`RemoteHomologyDataset`, `StabilityDataset`, `FluoroscenceDataset`).

Randomness (`random.shuffle`) is modelled by quantifying over shuffle
oracles: any function whose output is a permutation of its input is a
possible outcome of the call.  File I/O and assertion failures during
`__init__` are modelled as explicit event traces.
-/

namespace Jespr

/-- One record of the structural dataset: a dict with keys `"coords"` and
`"seq"` (`src/data.py`).  The coordinate payload is never inspected by the
code under study, so it is represented by an opaque identifier. -/
structure Item where
  coords : Nat
  seq : String
deriving DecidableEq

/-- `ESMDataset.filter_data` (src/data.py lines 38-50): rebuilds the list,
appending each item with `len(item["seq"]) <= max_seq_len and
len(item["seq"]) >= min_seq_len`. -/
def filter_data (data : List Item) (max_seq_len min_seq_len : Nat) : List Item :=
  data.foldl
    (fun acc item =>
      if item.seq.length ≤ max_seq_len ∧ min_seq_len ≤ item.seq.length then
        acc ++ [item]
      else acc)
    []

/-- `data_lens = [len(item["seq"]) for item in self.data]` (line 104). -/
def seqLens (data : List Item) : List Nat :=
  data.map (fun item => item.seq.length)

/-- The bin start values `range(self.args.min_seq_len, self.args.max_seq_len,
bin_size)` of line 101: `min_seq_len, min_seq_len + bin_size, ...`, strictly
below `max_seq_len`.  The element count is `ceil((max - min) / bin_size)`. -/
def binStarts (min_seq_len max_seq_len bin_size : Nat) : List Nat :=
  List.range' min_seq_len ((max_seq_len - min_seq_len + bin_size - 1) / bin_size) bin_size

/-- The per-record bin test of line 107:
`data_len >= bin_idx and data_len < bin_idx + bin_size`. -/
def binMatch (bin_size data_len bin_idx : Nat) : Bool :=
  decide (bin_idx ≤ data_len) && decide (data_len < bin_idx + bin_size)

/-- `bins[bin_idx].append(data_idx)` (line 108), on an association list whose
keys are the bin starts in insertion order. -/
def addToBin (bins : List (Nat × List Nat)) (k idx : Nat) : List (Nat × List Nat) :=
  bins.map (fun p => if p.1 = k then (p.1, p.2 ++ [idx]) else p)

/-- The binning double loop of lines 105-109: for each record (by index, in
order) find the first bin key passing `binMatch` and append the index there;
a record matching no bin is skipped. -/
def fillBins (bin_size : Nat) : List (Nat × List Nat) → List Nat → Nat → List (Nat × List Nat)
  | bins, [], _ => bins
  | bins, len :: rest, idx =>
    match (bins.map Prod.fst).find? (binMatch bin_size len) with
    | some k => fillBins bin_size (addToBin bins k idx) rest (idx + 1)
    | none => fillBins bin_size bins rest (idx + 1)

/-- A possible outcome of `random.shuffle(bins[bin_idx])` (line 112): for
every bin key, the output list is a permutation of the input list. -/
def IsBinShuffle (sh : Nat → List Nat → List Nat) : Prop :=
  ∀ k l, (sh k l).Perm l

/-- A possible outcome of `random.shuffle(all_batches)` (line 123). -/
def IsBatchShuffle (sh : List (List Nat) → List (List Nat)) : Prop :=
  ∀ l, (sh l).Perm l

/-- The degenerate shuffle outcome that leaves each bin unchanged. -/
def idBinShuffle : Nat → List Nat → List Nat := fun _ l => l

/-- The degenerate shuffle outcome that leaves the batch list unchanged. -/
def idBatchShuffle : List (List Nat) → List (List Nat) := fun l => l

/-- `ESMBatchSampler.create_bins` (lines 93-113): one bin per start value of
`binStarts`, filled first-fit in record order, then each bin independently
shuffled. -/
def create_bins (data : List Item) (min_seq_len max_seq_len bin_size : Nat)
    (sh : Nat → List Nat → List Nat) : List (Nat × List Nat) :=
  (fillBins bin_size
      ((binStarts min_seq_len max_seq_len bin_size).map (fun k => (k, ([] : List Nat))))
      (seqLens data) 0).map
    (fun p => (p.1, sh p.1 p.2))

/-- Fuel-driven core of the slicing `bins_flattened[i : i + batch_size]` for
`i in range(0, len(bins_flattened), batch_size)` (lines 119-122); the fuel is
an upper bound on the number of slices and `chunkList` instantiates it so
that it never runs out when `batch_size > 0`. -/
def chunkListAux (batch_size : Nat) : Nat → List Nat → List (List Nat)
  | 0, _ => []
  | _ + 1, [] => []
  | fuel + 1, x :: xs =>
    (x :: xs).take batch_size :: chunkListAux batch_size fuel ((x :: xs).drop batch_size)

/-- The batch slicing of lines 119-122: contiguous chunks of `batch_size`
elements; the trailing chunk is whatever remains (Python slicing keeps the
remainder, so the last chunk may be shorter). -/
def chunkList (batch_size : Nat) (l : List Nat) : List (List Nat) :=
  chunkListAux batch_size l.length l

/-- `ESMBatchSampler.create_batches` (lines 115-124): flatten the bins in key
order, slice into chunks of `batch_size`, shuffle the list of whole batches. -/
def create_batches (bins : List (Nat × List Nat)) (batch_size : Nat)
    (shB : List (List Nat) → List (List Nat)) : List (List Nat) :=
  shB (chunkList batch_size (bins.map Prod.snd).flatten)

/-- An observable step of a dataset `__init__`: an assertion failure or the
opening of a pickle file (the only I/O the constructors perform). -/
inductive Event where
  | assertFail (msg : String)
  | ioOpen (file : String)
deriving DecidableEq

/-- `["cath", "pdb"]` of the `assert` at line 28. -/
def esmValidDatasetNames : List String := ["cath", "pdb"]

/-- `ESMDataset.__init__` (lines 19-36) as an event trace: it asserts the
dataset name and then opens `{dataset_name}/{split}.pkl`; the split string is
never validated. -/
def esmDatasetInitEvents (dataset_name split : String) : List Event :=
  if dataset_name ∈ esmValidDatasetNames then
    [Event.ioOpen (dataset_name ++ "/" ++ split ++ ".pkl")]
  else
    [Event.assertFail "Invalid Dataset Name"]

/-- The valid splits of `RemoteHomologyDataset.__init__` (lines 343-349). -/
def remoteHomologyValidSplits : List String :=
  ["train", "val", "test_family_holdout", "test_superfamily_holdout", "test_fold_holdout"]

/-- The valid labels of `RemoteHomologyDataset.__init__` (lines 354-359). -/
def remoteHomologyValidLabels : List String := ["family", "superfamily", "fold", "class"]

/-- `RemoteHomologyDataset.__init__` (lines 331-360) as an event trace: assert
the split, open `remote_homology/{split}.pkl`, then assert the label. -/
def remoteHomologyInitEvents (split label_to_predict : String) : List Event :=
  if split ∈ remoteHomologyValidSplits then
    Event.ioOpen ("remote_homology/" ++ split ++ ".pkl") ::
      (if label_to_predict ∈ remoteHomologyValidLabels then []
       else [Event.assertFail ("Invalid label: " ++ label_to_predict ++ " to predict")])
  else
    [Event.assertFail ("Invalid Split: " ++ split)]

/-- The valid splits of `StabilityDataset.__init__` (lines 522-526). -/
def stabilityValidSplits : List String := ["train", "val", "test"]

/-- `StabilityDataset.__init__` (lines 511-529) as an event trace. -/
def stabilityInitEvents (split : String) : List Event :=
  if split ∈ stabilityValidSplits then
    [Event.ioOpen ("stability/" ++ split ++ ".pkl")]
  else
    [Event.assertFail ("Invalid Split: " ++ split)]

/-- The valid splits of `FluoroscenceDataset.__init__` (lines 667-671). -/
def fluoroscenceValidSplits : List String := ["train", "val", "test"]

/-- `FluoroscenceDataset.__init__` (lines 656-674) as an event trace. -/
def fluoroscenceInitEvents (split : String) : List Event :=
  if split ∈ fluoroscenceValidSplits then
    [Event.ioOpen ("fluoroscence/" ++ split ++ ".pkl")]
  else
    [Event.assertFail ("Invalid Split: " ++ split)]

/-- One deserialized entry of the remote-homology pickle: the `"primary"`
sequence plus the label fields, modelled as a key-value list
(`family_label`, `superfamily_label`, ...). -/
structure HEntry where
  primary : String
  labels : List (String × Int)
deriving DecidableEq

/-- The state `RemoteHomologyDataset.__init__` leaves behind on success (lines
331-360): the pickle contents and `self.label_to_predict =
f"{label_to_predict}_label"`; an assertion failure is an error value. -/
def remoteHomologyInit (split label_to_predict : String) (pickleData : List HEntry) :
    Except String (List HEntry × String) :=
  if split ∈ remoteHomologyValidSplits then
    if label_to_predict ∈ remoteHomologyValidLabels then
      Except.ok (pickleData, label_to_predict ++ "_label")
    else
      Except.error ("Invalid label: " ++ label_to_predict ++ " to predict")
  else
    Except.error ("Invalid Split: " ++ split)

/-- `RemoteHomologyDataset.__getitem__` (lines 365-375):
`(entry["primary"], entry[self.label_to_predict])`; a missing index or label
key is a lookup failure. -/
def remoteHomologyGetItem (store : List HEntry × String) (index : Nat) :
    Option (String × Option Int) :=
  (store.1[index]?).map (fun entry => (entry.primary, entry.labels.lookup store.2))

/-- One item of an `ESMDataset` batch, as `ESMDataset.__getitem__` returns it
(line 71): `(coords, None, seq)` — `item[0]`, `item[1]`, `item[2]`. -/
structure BatchItem where
  coords : Nat
  conf : Option Nat
  seq : String
deriving DecidableEq

/-- `inp_seqs = [("", item[2]) for item in batch]` (line 195). -/
def collate_inp_seqs (batch : List BatchItem) : List (String × String) :=
  batch.map (fun item => ("", item.seq))

/-- `ESMDataLoader.collate_fn` (lines 180-209) with the two external batch
converters abstracted as parameters: the ESM-2 converter is applied to
`inp_seqs` and the ESM-IF converter to the batch list itself; the returned
pair records what each converter was fed. -/
def collate_fn {α β : Type} (esm2_batch_converter : List (String × String) → α)
    (esm_if_batch_converter : List BatchItem → β) (batch : List BatchItem) : α × β :=
  (esm2_batch_converter (collate_inp_seqs batch), esm_if_batch_converter batch)

/-- The record indices (counting from `idx`) whose first matching bin key is
`k`: a characterization of what the binning loop appends to bin `k`. -/
def assignedIdxs (bin_size : Nat) (keys : List Nat) : List Nat → Nat → Nat → List Nat
  | [], _, _ => []
  | len :: rest, idx, k =>
    (if keys.find? (binMatch bin_size len) = some k then [idx] else []) ++
      assignedIdxs bin_size keys rest (idx + 1) k

/-- A sequence of `n` copies of one amino-acid symbol, for concrete inputs. -/
def mkSeq (n : Nat) : String := String.mk (List.replicate n 'a')

/-- The spec's worked scenario: 5 records with sequence lengths
`[10, 12, 25, 26, 40]`. -/
def scenarioData : List Item :=
  [⟨0, mkSeq 10⟩, ⟨1, mkSeq 12⟩, ⟨2, mkSeq 25⟩, ⟨3, mkSeq 26⟩, ⟨4, mkSeq 40⟩]

/-- Three records of lengths `[10, 12, 25]`: with `batch_size = 2` the
concatenated bins have odd length, exposing the trailing-remainder batch. -/
def remainderData : List Item :=
  [⟨0, mkSeq 10⟩, ⟨1, mkSeq 12⟩, ⟨2, mkSeq 25⟩]

/-- A concrete remote-homology entry carrying every label field. -/
def sampleHEntry : HEntry :=
  ⟨"MKV", [("family_label", 3), ("superfamily_label", 2), ("fold_label", 1), ("class_label", 0)]⟩

/-- A concrete two-item batch for the collate function. -/
def sampleBatch : List BatchItem := [⟨0, none, "AB"⟩, ⟨1, none, "C"⟩]

/-! ## Helper lemmas -/

theorem chunkListAux_spec {batch_size : Nat} (hbs : 0 < batch_size) :
    ∀ (fuel : Nat) (l : List Nat), l.length ≤ fuel →
      chunkListAux batch_size fuel l = chunkList batch_size l := by
  intro fuel
  induction fuel using Nat.strong_induction_on with
  | _ fuel ih =>
    intro l hl
    match fuel, l with
    | 0, l =>
      have : l = [] := List.eq_nil_of_length_eq_zero (Nat.le_zero.mp hl)
      subst this; rfl
    | f + 1, [] => rfl
    | f + 1, x :: xs =>
      have hxs : xs.length ≤ f := by simpa using hl
      have hdl : ((x :: xs).drop batch_size).length ≤ f := by
        simp only [List.length_drop, List.length_cons]; omega
      show (x :: xs).take batch_size :: chunkListAux batch_size f ((x :: xs).drop batch_size) =
        chunkList batch_size (x :: xs)
      have hrhs : chunkList batch_size (x :: xs) =
          (x :: xs).take batch_size ::
            chunkListAux batch_size xs.length ((x :: xs).drop batch_size) := rfl
      rw [hrhs, ih f (Nat.lt_succ_self f) _ hdl,
        ih xs.length (Nat.lt_succ_of_le hxs) _ (by simp only [List.length_drop, List.length_cons]; omega)]

theorem chunkList_cons {batch_size : Nat} (hbs : 0 < batch_size) (x : Nat) (xs : List Nat) :
    chunkList batch_size (x :: xs) =
      (x :: xs).take batch_size :: chunkList batch_size ((x :: xs).drop batch_size) := by
  show (x :: xs).take batch_size :: chunkListAux batch_size xs.length ((x :: xs).drop batch_size) = _
  rw [chunkListAux_spec hbs xs.length _ (by simp only [List.length_drop, List.length_cons]; omega)]

theorem chunkList_flatten_aux {batch_size : Nat} (hbs : 0 < batch_size) :
    ∀ (n : Nat) (l : List Nat), l.length ≤ n → (chunkList batch_size l).flatten = l := by
  intro n
  induction n using Nat.strong_induction_on with
  | _ n ih =>
    intro l hl
    match l with
    | [] => rfl
    | x :: xs =>
      have hn : xs.length + 1 ≤ n := by simpa using hl
      rw [chunkList_cons hbs, List.flatten_cons,
        ih (n - 1) (by omega) _ (by simp only [List.length_drop, List.length_cons]; omega),
        List.take_append_drop]

theorem chunkList_flatten {batch_size : Nat} (hbs : 0 < batch_size) (l : List Nat) :
    (chunkList batch_size l).flatten = l :=
  chunkList_flatten_aux hbs l.length l le_rfl

/-- The appending loop of `filter_data` is `List.filter`. -/
theorem filter_data_eq_filter (data : List Item) (max_seq_len min_seq_len : Nat) :
    filter_data data max_seq_len min_seq_len =
      data.filter (fun item =>
        decide (item.seq.length ≤ max_seq_len) && decide (min_seq_len ≤ item.seq.length)) := by
  have key : ∀ (l : List Item) (acc : List Item),
      l.foldl
          (fun acc item =>
            if item.seq.length ≤ max_seq_len ∧ min_seq_len ≤ item.seq.length then
              acc ++ [item]
            else acc)
          acc =
        acc ++ l.filter (fun item =>
          decide (item.seq.length ≤ max_seq_len) && decide (min_seq_len ≤ item.seq.length)) := by
    intro l
    induction l with
    | nil => intro acc; simp
    | cons a l ih =>
      intro acc
      simp only [List.foldl_cons, List.filter_cons]
      by_cases h : a.seq.length ≤ max_seq_len ∧ min_seq_len ≤ a.seq.length
      · rw [if_pos h, ih]
        simp [h.1, h.2]
      · rw [if_neg h, ih]
        have hcond : (decide (a.seq.length ≤ max_seq_len) &&
            decide (min_seq_len ≤ a.seq.length)) = false := by
          simp only [Bool.and_eq_false_iff, decide_eq_false_iff_not]
          by_cases h1 : a.seq.length ≤ max_seq_len
          · exact Or.inr (fun h2 => h ⟨h1, h2⟩)
          · exact Or.inl h1
        simp [hcond]
  simpa using key data []

theorem addToBin_keys (bins : List (Nat × List Nat)) (k idx : Nat) :
    (addToBin bins k idx).map Prod.fst = bins.map Prod.fst := by
  simp only [addToBin, List.map_map]
  exact List.map_congr_left (fun p _ => by by_cases h : p.1 = k <;> simp [h])

/-- The binning loop appends to each bin exactly the indices whose first
matching key is that bin's key. -/
theorem fillBins_eq (bin_size : Nat) :
    ∀ (lens : List Nat) (bins : List (Nat × List Nat)) (idx : Nat),
      fillBins bin_size bins lens idx =
        bins.map (fun p =>
          (p.1, p.2 ++ assignedIdxs bin_size (bins.map Prod.fst) lens idx p.1)) := by
  intro lens
  induction lens with
  | nil =>
    intro bins idx
    simp [fillBins, assignedIdxs]
  | cons len rest ih =>
    intro bins idx
    simp only [fillBins]
    cases hfind : (bins.map Prod.fst).find? (binMatch bin_size len) with
    | none =>
      show fillBins bin_size bins rest (idx + 1) = _
      rw [ih]
      refine List.map_congr_left (fun p _ => ?_)
      simp [assignedIdxs, hfind]
    | some k =>
      show fillBins bin_size (addToBin bins k idx) rest (idx + 1) = _
      rw [ih, addToBin_keys]
      simp only [addToBin, List.map_map]
      refine List.map_congr_left (fun p _ => ?_)
      by_cases hpk : p.1 = k
      · subst hpk
        simp [assignedIdxs, hfind]
      · have hne : ¬((bins.map Prod.fst).find? (binMatch bin_size len) = some p.1) := by
          rw [hfind]
          simp only [Option.some.injEq]
          exact fun hk => hpk hk.symm
        simp [assignedIdxs, hpk, if_neg hne]

/-- `create_bins` in closed form: one entry per bin start, holding a shuffle
of the first-fit assigned indices. -/
theorem create_bins_eq (data : List Item) (min_seq_len max_seq_len bin_size : Nat)
    (sh : Nat → List Nat → List Nat) :
    create_bins data min_seq_len max_seq_len bin_size sh =
      (binStarts min_seq_len max_seq_len bin_size).map
        (fun k =>
          (k, sh k (assignedIdxs bin_size (binStarts min_seq_len max_seq_len bin_size)
                (seqLens data) 0 k))) := by
  unfold create_bins
  rw [fillBins_eq]
  have hkeys : ((binStarts min_seq_len max_seq_len bin_size).map
      (fun k => (k, ([] : List Nat)))).map Prod.fst =
      binStarts min_seq_len max_seq_len bin_size := by
    have hcomp : (Prod.fst ∘ fun k : Nat => (k, ([] : List Nat))) = id := rfl
    rw [List.map_map, hcomp, List.map_id]
  rw [hkeys]
  simp [List.map_map, Function.comp]

theorem mem_assignedIdxs {bin_size : Nat} {keys : List Nat} :
    ∀ {lens : List Nat} {idx k j : Nat},
      j ∈ assignedIdxs bin_size keys lens idx k ↔
        ∃ t, t < lens.length ∧ j = idx + t ∧
          keys.find? (binMatch bin_size (lens.getD t 0)) = some k := by
  intro lens
  induction lens with
  | nil => simp [assignedIdxs]
  | cons len rest ih =>
    intro idx k j
    simp only [assignedIdxs, List.mem_append]
    constructor
    · rintro (hj | hj)
      · refine ⟨0, by simp, ?_, ?_⟩
        · by_cases hc : keys.find? (binMatch bin_size len) = some k
          · simp [hc] at hj
            omega
          · simp [hc] at hj
        · by_cases hc : keys.find? (binMatch bin_size len) = some k
          · simpa using hc
          · simp [hc] at hj
      · obtain ⟨t, ht, hjt, hfind⟩ := ih.mp hj
        exact ⟨t + 1, by simpa using ht, by omega, by simpa using hfind⟩
    · rintro ⟨t, ht, hjt, hfind⟩
      match t with
      | 0 =>
        left
        simp only [List.getD_cons_zero] at hfind
        simp [hfind]
        omega
      | t + 1 =>
        right
        refine ih.mpr ⟨t, by simpa using ht, by omega, by simpa using hfind⟩

theorem assignedIdxs_ge {bin_size : Nat} {keys : List Nat} :
    ∀ {lens : List Nat} {idx k j : Nat},
      j ∈ assignedIdxs bin_size keys lens idx k → idx ≤ j := by
  intro lens idx k j hj
  obtain ⟨t, _, hjt, _⟩ := mem_assignedIdxs.mp hj
  omega

theorem assignedIdxs_nodup {bin_size : Nat} {keys : List Nat} :
    ∀ (lens : List Nat) (idx k : Nat), (assignedIdxs bin_size keys lens idx k).Nodup := by
  intro lens
  induction lens with
  | nil => intro idx k; simp [assignedIdxs]
  | cons len rest ih =>
    intro idx k
    by_cases hc : keys.find? (binMatch bin_size len) = some k
    · simp only [assignedIdxs, if_pos hc, List.singleton_append, List.nodup_cons]
      exact ⟨fun hmem => by have := assignedIdxs_ge hmem; omega, ih (idx + 1) k⟩
    · simp only [assignedIdxs, if_neg hc, List.nil_append]
      exact ih (idx + 1) k

/-- `ceil(D / bin_size)` bounds: the bins tile at least `D` and at most
`D + bin_size - 1` positions. -/
theorem binCount_bounds {bin_size : Nat} (D : Nat) (hbs : 0 < bin_size) :
    D ≤ bin_size * ((D + bin_size - 1) / bin_size) ∧
      bin_size * ((D + bin_size - 1) / bin_size) ≤ D + bin_size - 1 := by
  have e2 := Nat.div_add_mod (D + bin_size - 1) bin_size
  have r2 := Nat.mod_lt (D + bin_size - 1) hbs
  omega

theorem lt_binCount {bin_size j D : Nat} (hbs : 0 < bin_size) (h : bin_size * j < D) :
    j < (D + bin_size - 1) / bin_size := by
  by_contra hc
  push_neg at hc
  have h1 := (binCount_bounds D hbs).1
  have h2 : bin_size * ((D + bin_size - 1) / bin_size) ≤ bin_size * j :=
    Nat.mul_le_mul_left _ hc
  omega

theorem mul_lt_of_lt_binCount {bin_size j D : Nat} (hbs : 0 < bin_size)
    (h : j < (D + bin_size - 1) / bin_size) : bin_size * j < D := by
  have h1 := (binCount_bounds D hbs).2
  have h2 : bin_size * (j + 1) ≤ bin_size * ((D + bin_size - 1) / bin_size) :=
    Nat.mul_le_mul_left _ h
  have h3 : bin_size * (j + 1) = bin_size * j + bin_size := by ring
  omega

/-- Membership in the bin starts, in the spec's form: the multiples of
`bin_size` offset from `min_seq_len`, strictly below `max_seq_len`. -/
theorem mem_binStarts_iff {min_seq_len max_seq_len bin_size k : Nat} (hbs : 0 < bin_size) :
    k ∈ binStarts min_seq_len max_seq_len bin_size ↔
      (∃ j, k = min_seq_len + bin_size * j) ∧ k < max_seq_len := by
  rw [binStarts, List.mem_range']
  constructor
  · rintro ⟨j, hj, rfl⟩
    exact ⟨⟨j, rfl⟩, by have := mul_lt_of_lt_binCount hbs hj; omega⟩
  · rintro ⟨⟨j, rfl⟩, hk⟩
    exact ⟨j, lt_binCount hbs (by omega), rfl⟩

/-- When a record's length lies in `[min_seq_len, max_seq_len)` some bin
start matches it: the bins tile that whole interval. -/
theorem exists_matching_start {min_seq_len max_seq_len bin_size len : Nat}
    (hbs : 0 < bin_size) (h1 : min_seq_len ≤ len) (h2 : len < max_seq_len) :
    ∃ k ∈ binStarts min_seq_len max_seq_len bin_size, binMatch bin_size len k = true := by
  have e1 := Nat.div_add_mod (len - min_seq_len) bin_size
  have r1 := Nat.mod_lt (len - min_seq_len) hbs
  refine ⟨min_seq_len + bin_size * ((len - min_seq_len) / bin_size), ?_, ?_⟩
  · rw [mem_binStarts_iff hbs]
    exact ⟨⟨_, rfl⟩, by omega⟩
  · simp only [binMatch, Bool.and_eq_true, decide_eq_true_eq]
    omega

/-- On a strictly increasing list, `find?` returns exactly the least element
satisfying the predicate. -/
theorem find?_eq_some_iff_min {p : Nat → Bool} :
    ∀ {l : List Nat}, l.Pairwise (· < ·) → ∀ {k : Nat},
      (l.find? p = some k ↔ k ∈ l ∧ p k = true ∧ ∀ q ∈ l, q < k → p q = false) := by
  intro l
  induction l with
  | nil => intro _ k; simp
  | cons a l ih =>
    intro hl k
    have ha : ∀ q ∈ l, a < q := fun q hq => List.rel_of_pairwise_cons hl hq
    have hl2 : l.Pairwise (· < ·) := List.Pairwise.of_cons hl
    by_cases hpa : p a = true
    · rw [List.find?_cons_of_pos _ hpa]
      constructor
      · rintro hk
        have hak : a = k := by simpa using hk
        subst hak
        refine ⟨by simp, hpa, ?_⟩
        intro q hq hqa
        rcases List.mem_cons.mp hq with rfl | hq
        · omega
        · exact absurd (ha q hq) (by omega)
      · rintro ⟨hk, hpk, hmin⟩
        rcases List.mem_cons.mp hk with rfl | hk
        · rfl
        · have hak := ha k hk
          have hfalse := hmin a (by simp) hak
          rw [hpa] at hfalse
          exact absurd hfalse (by simp)
    · rw [List.find?_cons_of_neg _ hpa, ih hl2]
      constructor
      · rintro ⟨hk, hpk, hmin⟩
        refine ⟨List.mem_cons_of_mem _ hk, hpk, ?_⟩
        intro q hq hqk
        rcases List.mem_cons.mp hq with rfl | hq
        · simpa using hpa
        · exact hmin q hq hqk
      · rintro ⟨hk, hpk, hmin⟩
        rcases List.mem_cons.mp hk with rfl | hk
        · exact absurd hpk hpa
        · exact ⟨hk, hpk, fun q hq hqk => hmin q (List.mem_cons_of_mem _ hq) hqk⟩

theorem binStarts_pairwise (min_seq_len max_seq_len bin_size : Nat) (hbs : 0 < bin_size) :
    (binStarts min_seq_len max_seq_len bin_size).Pairwise (· < ·) :=
  List.pairwise_lt_range' _ _ bin_size hbs

theorem binStarts_nodup (min_seq_len max_seq_len bin_size : Nat) (hbs : 0 < bin_size) :
    (binStarts min_seq_len max_seq_len bin_size).Nodup :=
  List.nodup_range' _ _ bin_size hbs

theorem le_getLast_of_pairwise_lt :
    ∀ {l : List Nat}, l.Pairwise (· < ·) → ∀ k ∈ l, ∀ (h : l ≠ []), k ≤ l.getLast h := by
  intro l
  induction l with
  | nil => intro _ k hk; exact absurd hk (by simp)
  | cons a l ih =>
    intro hl k hk h
    rcases List.mem_cons.mp hk with rfl | hk
    · match l with
      | [] => simp
      | b :: l2 =>
        have hb : k < (b :: l2).getLast (by simp) :=
          List.rel_of_pairwise_cons hl (List.getLast_mem _)
        rw [List.getLast_cons (by simp)]
        omega
    · match l with
      | [] => exact absurd hk (by simp)
      | b :: l2 =>
        rw [List.getLast_cons (by simp)]
        exact ih (List.Pairwise.of_cons hl) k hk (by simp)

/-- Summing the indicator of one value over a list counts its occurrences. -/
theorem sum_map_ite_eq_count (k0 : Nat) :
    ∀ (keys : List Nat), ((keys.map (fun k => if k = k0 then 1 else 0)).sum : Nat) =
      keys.count k0 := by
  intro keys
  induction keys with
  | nil => simp
  | cons a l ih =>
    simp only [List.map_cons, List.sum_cons, List.count_cons, ih]
    by_cases h : a = k0
    · simp [h]
      omega
    · simp [h]

/-- If one element occurs exactly once in the flattened list, exactly one of
the sublists contains it. -/
theorem countP_mem_eq_one_of_count_flatten {i : Nat} :
    ∀ {L : List (List Nat)}, List.count i L.flatten = 1 →
      L.countP (fun b => decide (i ∈ b)) = 1 := by
  intro L
  induction L with
  | nil => intro h; simp at h
  | cons b L ih =>
    intro h
    rw [List.flatten_cons, List.count_append] at h
    rw [List.countP_cons]
    by_cases hb : i ∈ b
    · have hcb : 0 < List.count i b := List.count_pos_iff.mpr hb
      have hL : List.count i L.flatten = 0 := by omega
      have hcp : L.countP (fun b => decide (i ∈ b)) = 0 := by
        rw [List.countP_eq_zero]
        intro c hc
        simp only [decide_eq_true_eq]
        intro hic
        have hmem : i ∈ L.flatten := List.mem_flatten.mpr ⟨c, hc, hic⟩
        rw [List.count_eq_zero] at hL
        exact hL hmem
      simp [hb, hcp]
    · have hcb : List.count i b = 0 := List.count_eq_zero.mpr hb
      rw [ih (by omega)]
      simp [hb]


/-! ## Claim theorems -/

theorem idBinShuffle_spec : IsBinShuffle idBinShuffle := fun _ l => List.Perm.refl l

theorem idBatchShuffle_spec : IsBatchShuffle idBatchShuffle := fun l => List.Perm.refl l

/-- C5: after `ESMDataset.filter_data` every remaining record satisfies
`min_seq_len <= len(sequence) <= max_seq_len` (both inclusive), every record
violating that condition is dropped, and `min_seq_len > max_seq_len` yields
an empty store rather than an error. -/
theorem c5_filter_data_correct (data : List Item) (min_seq_len max_seq_len : Nat) :
    (∀ item ∈ filter_data data max_seq_len min_seq_len,
        min_seq_len ≤ item.seq.length ∧ item.seq.length ≤ max_seq_len)
  ∧ (∀ item ∈ data, min_seq_len ≤ item.seq.length → item.seq.length ≤ max_seq_len →
        item ∈ filter_data data max_seq_len min_seq_len)
  ∧ (∀ item ∈ data, ¬(min_seq_len ≤ item.seq.length ∧ item.seq.length ≤ max_seq_len) →
        item ∉ filter_data data max_seq_len min_seq_len)
  ∧ (max_seq_len < min_seq_len → filter_data data max_seq_len min_seq_len = []) := by
  rw [filter_data_eq_filter]
  refine ⟨?_, ?_, ?_, ?_⟩
  · intro item hitem
    have h := List.of_mem_filter hitem
    simp only [Bool.and_eq_true, decide_eq_true_eq] at h
    exact ⟨h.2, h.1⟩
  · intro item hitem h1 h2
    exact List.mem_filter.mpr ⟨hitem, by simp [h1, h2]⟩
  · intro item _ hnot hmem
    have h := List.of_mem_filter hmem
    simp only [Bool.and_eq_true, decide_eq_true_eq] at h
    exact hnot ⟨h.2, h.1⟩
  · intro hlt
    rw [List.filter_eq_nil_iff]
    intro a _
    simp only [Bool.and_eq_true, decide_eq_true_eq, not_and]
    intro h1 h2
    omega

theorem c5_filter_data_correct_witness :
    filter_data scenarioData 3 5 = [] :=
  (c5_filter_data_correct scenarioData 5 3).2.2.2 (by omega)

/-- C9: `filter_data` is a stable filter: the retained records keep their
relative order (the result is a sublist of the input) and each retained
record is one of the original records, unmodified. -/
theorem c9_filter_data_stable (data : List Item) (max_seq_len min_seq_len : Nat) :
    (filter_data data max_seq_len min_seq_len).Sublist data
  ∧ ∀ item ∈ filter_data data max_seq_len min_seq_len, item ∈ data := by
  rw [filter_data_eq_filter]
  exact ⟨List.filter_sublist data, fun item h => List.mem_of_mem_filter h⟩

theorem c9_filter_data_stable_witness :
    (filter_data scenarioData 26 11).Sublist scenarioData :=
  (c9_filter_data_stable scenarioData 26 11).1

/-- C8: `collate_fn` feeds both converters from one shared batch ordering:
the ESM-2 converter receives pairs whose `b`-th sequence is exactly the
`b`-th batch item's sequence, and the ESM-IF converter receives the batch
list itself unchanged. -/
theorem c8_collate_alignment {α β : Type} (esm2_batch_converter : List (String × String) → α)
    (esm_if_batch_converter : List BatchItem → β) (batch : List BatchItem) :
    collate_fn esm2_batch_converter esm_if_batch_converter batch =
      (esm2_batch_converter (collate_inp_seqs batch), esm_if_batch_converter batch)
  ∧ (collate_inp_seqs batch).length = batch.length
  ∧ ∀ (b : Nat) (item : BatchItem), batch[b]? = some item →
      (collate_inp_seqs batch)[b]? = some ("", item.seq) := by
  refine ⟨rfl, by simp [collate_inp_seqs], ?_⟩
  intro b item hb
  simp [collate_inp_seqs, List.getElem?_map, hb]

theorem c8_collate_alignment_witness :
    (collate_inp_seqs sampleBatch)[1]? = some ("", "C") :=
  (c8_collate_alignment (fun l => l) (fun l => l) sampleBatch).2.2 1 ⟨1, none, "C"⟩ rfl

/-- C6 counterexample: the structural `ESMDataset` does not validate the
split: with the valid dataset name `"cath"` and the unknown split
`"unknown_split"` its construction performs the pickle open (I/O) and raises
no invalid-split assertion, contradicting the claim for this variant. -/
theorem c6_counterexample :
    esmDatasetInitEvents "cath" "unknown_split" = [Event.ioOpen "cath/unknown_split.pkl"]
  ∧ Event.ioOpen "cath/unknown_split.pkl" ∈ esmDatasetInitEvents "cath" "unknown_split"
  ∧ Event.assertFail ("Invalid Split: " ++ "unknown_split") ∉
      esmDatasetInitEvents "cath" "unknown_split" := by decide

/-- C6 amended: the label-prediction datasets (remote homology, stability,
fluoroscence) fail with an invalid-split assertion before any I/O; the
structural `ESMDataset` validates only the dataset name and proceeds to I/O
for any split string whatsoever. -/
theorem c6_amended_split_validation (split label_to_predict dataset_name : String) :
    (split ∉ remoteHomologyValidSplits →
        remoteHomologyInitEvents split label_to_predict =
          [Event.assertFail ("Invalid Split: " ++ split)])
  ∧ (split ∉ stabilityValidSplits →
        stabilityInitEvents split = [Event.assertFail ("Invalid Split: " ++ split)])
  ∧ (split ∉ fluoroscenceValidSplits →
        fluoroscenceInitEvents split = [Event.assertFail ("Invalid Split: " ++ split)])
  ∧ (dataset_name ∈ esmValidDatasetNames →
        esmDatasetInitEvents dataset_name split =
          [Event.ioOpen (dataset_name ++ "/" ++ split ++ ".pkl")])
  ∧ (dataset_name ∉ esmValidDatasetNames →
        esmDatasetInitEvents dataset_name split =
          [Event.assertFail "Invalid Dataset Name"]) := by
  refine ⟨?_, ?_, ?_, ?_, ?_⟩ <;> intro h <;>
    simp [remoteHomologyInitEvents, stabilityInitEvents, fluoroscenceInitEvents,
      esmDatasetInitEvents, h]

theorem c6_amended_split_validation_witness :
    remoteHomologyInitEvents "bogus" "family" =
      [Event.assertFail ("Invalid Split: " ++ "bogus")] :=
  (c6_amended_split_validation "bogus" "family" "cath").1 (by decide)

/-- C7: `RemoteHomologyDataset` rejects an unrecognized `label_to_predict`
at construction time (the assertion fires inside `__init__`, before any item
or batch is requested); with a valid value construction succeeds, stores
`label_to_predict + "_label"`, and item access looks up that label field. -/
theorem c7_label_validation (split label_to_predict : String) (pickleData : List HEntry)
    (hs : split ∈ remoteHomologyValidSplits) :
    (label_to_predict ∉ remoteHomologyValidLabels →
        remoteHomologyInit split label_to_predict pickleData =
          Except.error ("Invalid label: " ++ label_to_predict ++ " to predict")
      ∧ Event.assertFail ("Invalid label: " ++ label_to_predict ++ " to predict") ∈
          remoteHomologyInitEvents split label_to_predict)
  ∧ (label_to_predict ∈ remoteHomologyValidLabels →
        remoteHomologyInit split label_to_predict pickleData =
          Except.ok (pickleData, label_to_predict ++ "_label")
      ∧ ∀ store, remoteHomologyInit split label_to_predict pickleData = Except.ok store →
          ∀ index entry, store.1[index]? = some entry →
            remoteHomologyGetItem store index =
              some (entry.primary, entry.labels.lookup (label_to_predict ++ "_label"))) := by
  constructor
  · intro hbad
    constructor
    · simp [remoteHomologyInit, hs, hbad]
    · simp [remoteHomologyInitEvents, hs, hbad]
  · intro hgood
    have hinit : remoteHomologyInit split label_to_predict pickleData =
        Except.ok (pickleData, label_to_predict ++ "_label") := by
      simp [remoteHomologyInit, hs, hgood]
    refine ⟨hinit, ?_⟩
    intro store hstore index entry hentry
    rw [hinit] at hstore
    have hstore2 : store = (pickleData, label_to_predict ++ "_label") := by
      cases hstore
      rfl
    subst hstore2
    simp [remoteHomologyGetItem, hentry]

theorem c7_label_validation_witness :
    remoteHomologyInit "train" "family" [sampleHEntry] =
      Except.ok ([sampleHEntry], "family" ++ "_label") :=
  ((c7_label_validation "train" "family" [sampleHEntry] (by decide)).2 (by decide)).1

/-- C1, behavior of the code at the failing input: three records of lengths
`[10, 12, 25]` with `min_seq_len = 10`, `max_seq_len = 40`, `bin_size = 15`,
`batch_size = 2` bin into `[(10, [0, 1]), (25, [2])]`; the slicing in
`create_batches` keeps the trailing remainder, producing the final batch
`[2]` of size 1 even though `self.drop_last = True` is set — the claim's
drop-last semantics are not implemented. -/
theorem c1_trailing_batch_kept :
    create_batches (create_bins remainderData 10 40 15 idBinShuffle) 2 idBatchShuffle =
      [[0, 1], [2]]
  ∧ ¬(∀ b ∈ create_batches (create_bins remainderData 10 40 15 idBinShuffle) 2 idBatchShuffle,
        b.length = 2) := by decide


theorem chunkList_ne_nil {batch_size : Nat} (hbs : 0 < batch_size) (l : List Nat)
    (hne : l ≠ []) :
    chunkList batch_size l = l.take batch_size :: chunkList batch_size (l.drop batch_size) := by
  match l with
  | [] => exact absurd rfl hne
  | x :: xs => exact chunkList_cons hbs x xs

/-- C2: `create_bins` makes one bin per start `min_seq_len + j * bin_size`
strictly below `max_seq_len`; a record index is in a bin iff that bin is the
first (least) start `k` with `k <= len < k + bin_size`; a record at or past
the final bin's upper edge lands in no bin. -/
theorem c2_create_bins_first_fit (data : List Item) (min_seq_len max_seq_len bin_size : Nat)
    (sh : Nat → List Nat → List Nat) (hbs : 0 < bin_size) (hsh : IsBinShuffle sh) :
    ((create_bins data min_seq_len max_seq_len bin_size sh).map Prod.fst =
        binStarts min_seq_len max_seq_len bin_size)
  ∧ (∀ k : Nat, k ∈ binStarts min_seq_len max_seq_len bin_size ↔
        (∃ j, k = min_seq_len + bin_size * j) ∧ k < max_seq_len)
  ∧ (∀ i, i < (seqLens data).length →
        ∀ p ∈ create_bins data min_seq_len max_seq_len bin_size sh,
          (i ∈ p.2 ↔
            p.1 ≤ (seqLens data).getD i 0 ∧ (seqLens data).getD i 0 < p.1 + bin_size ∧
              ∀ k ∈ binStarts min_seq_len max_seq_len bin_size,
                k ≤ (seqLens data).getD i 0 → (seqLens data).getD i 0 < k + bin_size →
                  p.1 ≤ k))
  ∧ (∀ i, i < (seqLens data).length →
        ∀ hne : binStarts min_seq_len max_seq_len bin_size ≠ [],
          (binStarts min_seq_len max_seq_len bin_size).getLast hne + bin_size ≤
            (seqLens data).getD i 0 →
          ∀ p ∈ create_bins data min_seq_len max_seq_len bin_size sh, i ∉ p.2) := by
  have hpair := binStarts_pairwise min_seq_len max_seq_len bin_size hbs
  have hfst : (create_bins data min_seq_len max_seq_len bin_size sh).map Prod.fst =
      binStarts min_seq_len max_seq_len bin_size := by
    rw [create_bins_eq, List.map_map]
    have hcomp : (Prod.fst ∘ fun k : Nat =>
        (k, sh k (assignedIdxs bin_size (binStarts min_seq_len max_seq_len bin_size)
          (seqLens data) 0 k))) = id := rfl
    rw [hcomp, List.map_id]
  have hmem_char : ∀ i, i < (seqLens data).length →
      ∀ p ∈ create_bins data min_seq_len max_seq_len bin_size sh,
        (i ∈ p.2 ↔
          (binStarts min_seq_len max_seq_len bin_size).find?
              (binMatch bin_size ((seqLens data).getD i 0)) = some p.1) := by
    intro i hi p hp
    rw [create_bins_eq] at hp
    obtain ⟨k, hk, hpk⟩ := List.mem_map.mp hp
    subst hpk
    show i ∈ sh k _ ↔ _
    rw [(hsh k _).mem_iff, mem_assignedIdxs]
    constructor
    · rintro ⟨t, ht, hit, hfind⟩
      have hti : t = i := by omega
      subst hti
      exact hfind
    · intro hfind
      exact ⟨i, hi, by omega, hfind⟩
  refine ⟨hfst, fun k => mem_binStarts_iff hbs, ?_, ?_⟩
  · intro i hi p hp
    rw [hmem_char i hi p hp, find?_eq_some_iff_min hpair]
    constructor
    · rintro ⟨hkmem, hkmatch, hmin⟩
      simp only [binMatch, Bool.and_eq_true, decide_eq_true_eq] at hkmatch
      refine ⟨hkmatch.1, hkmatch.2, ?_⟩
      intro k hk hk1 hk2
      by_contra hlt
      push_neg at hlt
      have hfalse := hmin k hk hlt
      simp only [binMatch, Bool.and_eq_false_iff, decide_eq_false_iff_not] at hfalse
      rcases hfalse with h | h
      · omega
      · omega
    · rintro ⟨h1, h2, hmin⟩
      have hp1 : p.1 ∈ binStarts min_seq_len max_seq_len bin_size := by
        rw [← hfst]
        exact List.mem_map_of_mem Prod.fst hp
      refine ⟨hp1, ?_, ?_⟩
      · simp only [binMatch, Bool.and_eq_true, decide_eq_true_eq]
        exact ⟨h1, h2⟩
      · intro q hq hqlt
        cases hqm : binMatch bin_size ((seqLens data).getD i 0) q with
        | false => rfl
        | true =>
          simp only [binMatch, Bool.and_eq_true, decide_eq_true_eq] at hqm
          have := hmin q hq hqm.1 hqm.2
          omega
  · intro i hi hne hlast p hp hmem
    have hfind := (hmem_char i hi p hp).mp hmem
    have hp1mem := List.mem_of_find?_eq_some hfind
    have hmatch := List.find?_some hfind
    simp only [binMatch, Bool.and_eq_true, decide_eq_true_eq] at hmatch
    have hle := le_getLast_of_pairwise_lt hpair p.1 hp1mem hne
    omega

theorem c2_create_bins_first_fit_witness :
    (create_bins remainderData 10 40 15 idBinShuffle).map Prod.fst = binStarts 10 40 15 :=
  (c2_create_bins_first_fit remainderData 10 40 15 idBinShuffle (by omega) idBinShuffle_spec).1

/-- C3: the spec's worked scenario (lengths `[10, 12, 25, 26, 40]`,
`min_seq_len = 10`, `max_seq_len = 40`, `bin_size = 15`, `batch_size = 2`):
bins start at 10 and 25, bin 10 holds the indices of the length-10 and
length-12 records, bin 25 those of the length-25 and length-26 records, the
batches are exactly those two index pairs in some shuffled order, and the
length-40 record (index 4) appears in no batch. -/
theorem c3_scenario (sh : Nat → List Nat → List Nat) (shB : List (List Nat) → List (List Nat))
    (hsh : IsBinShuffle sh) (hshB : IsBatchShuffle shB) :
    ((create_bins scenarioData 10 40 15 sh).map Prod.fst = [10, 25])
  ∧ (∀ p ∈ create_bins scenarioData 10 40 15 sh,
        (p.1 = 10 → (p.2 : Multiset Nat) = {0, 1}) ∧
          (p.1 = 25 → (p.2 : Multiset Nat) = {2, 3}))
  ∧ (Multiset.ofList ((create_batches (create_bins scenarioData 10 40 15 sh) 2 shB).map
        (fun b : List Nat => (b : Multiset Nat))) =
      {({0, 1} : Multiset Nat), ({2, 3} : Multiset Nat)})
  ∧ (∀ b ∈ create_batches (create_bins scenarioData 10 40 15 sh) 2 shB, 4 ∉ b) := by
  have hbins : create_bins scenarioData 10 40 15 sh =
      [(10, sh 10 [0, 1]), (25, sh 25 [2, 3])] := rfl
  have h10 : (sh 10 [0, 1]).Perm [0, 1] := hsh 10 [0, 1]
  have h25 : (sh 25 [2, 3]).Perm [2, 3] := hsh 25 [2, 3]
  have hlen10 : (sh 10 [0, 1]).length = 2 := h10.length_eq
  have hlen25 : (sh 25 [2, 3]).length = 2 := h25.length_eq
  have hflat : ((create_bins scenarioData 10 40 15 sh).map Prod.snd).flatten =
      sh 10 [0, 1] ++ sh 25 [2, 3] := by
    rw [hbins]
    simp
  have hchunks : chunkList 2 (sh 10 [0, 1] ++ sh 25 [2, 3]) =
      [sh 10 [0, 1], sh 25 [2, 3]] := by
    have hne : sh 10 [0, 1] ++ sh 25 [2, 3] ≠ [] := by
      intro hcontra
      have hl := congrArg List.length hcontra
      simp [hlen10] at hl
    rw [chunkList_ne_nil (by omega) _ hne]
    have htake : (sh 10 [0, 1] ++ sh 25 [2, 3]).take 2 = sh 10 [0, 1] := by
      rw [← hlen10]
      exact List.take_left _ _
    have hdrop : (sh 10 [0, 1] ++ sh 25 [2, 3]).drop 2 = sh 25 [2, 3] := by
      rw [← hlen10]
      exact List.drop_left _ _
    rw [htake, hdrop]
    have hne2 : sh 25 [2, 3] ≠ [] := by
      intro hcontra
      have hl := congrArg List.length hcontra
      simp [hlen25] at hl
    rw [chunkList_ne_nil (by omega) _ hne2, List.take_of_length_le (by omega),
      List.drop_of_length_le (by omega)]
    rfl
  have hbatches : (create_batches (create_bins scenarioData 10 40 15 sh) 2 shB).Perm
      [sh 10 [0, 1], sh 25 [2, 3]] := by
    unfold create_batches
    rw [hflat, hchunks]
    exact hshB _
  have hm10 : ((sh 10 [0, 1] : List Nat) : Multiset Nat) = {0, 1} :=
    Multiset.coe_eq_coe.mpr h10
  have hm25 : ((sh 25 [2, 3] : List Nat) : Multiset Nat) = {2, 3} :=
    Multiset.coe_eq_coe.mpr h25
  refine ⟨by rw [hbins]; rfl, ?_, ?_, ?_⟩
  · intro p hp
    rw [hbins] at hp
    rcases List.mem_cons.mp hp with rfl | hp2
    · exact ⟨fun _ => hm10, fun habs => absurd habs (by omega)⟩
    · rcases List.mem_cons.mp hp2 with rfl | hp3
      · exact ⟨fun habs => absurd habs (by omega), fun _ => hm25⟩
      · exact absurd hp3 (by simp)
  · have hmap := hbatches.map (fun b : List Nat => (b : Multiset Nat))
    have hcoe : Multiset.ofList
        ((create_batches (create_bins scenarioData 10 40 15 sh) 2 shB).map
          (fun b : List Nat => (b : Multiset Nat))) =
        Multiset.ofList ([sh 10 [0, 1], sh 25 [2, 3]].map
          (fun b : List Nat => (b : Multiset Nat))) :=
      Multiset.coe_eq_coe.mpr hmap
    rw [hcoe]
    show (({((sh 10 [0, 1] : List Nat) : Multiset Nat),
        ((sh 25 [2, 3] : List Nat) : Multiset Nat)}) : Multiset (Multiset Nat)) = _
    rw [hm10, hm25]
  · intro b hb h4
    rcases List.mem_cons.mp (hbatches.mem_iff.mp hb) with rfl | hb2
    · have h4m := h10.mem_iff.mp h4
      simp at h4m
    · rcases List.mem_cons.mp hb2 with rfl | hb3
      · have h4m := h25.mem_iff.mp h4
        simp at h4m
      · exact absurd hb3 (by simp)

theorem c3_scenario_witness :
    (create_bins scenarioData 10 40 15 idBinShuffle).map Prod.fst = [10, 25] :=
  (c3_scenario idBinShuffle idBatchShuffle idBinShuffle_spec idBatchShuffle_spec).1

/-- C4: every record with `min_seq_len <= len < max_seq_len` is placed in
exactly one bin: its index occurs once across the flattened bins, exactly one
bin contains it, and no bin holds a duplicate. -/
theorem c4_exactly_one_bin (data : List Item) (min_seq_len max_seq_len bin_size : Nat)
    (sh : Nat → List Nat → List Nat) (hbs : 0 < bin_size) (hsh : IsBinShuffle sh)
    (i : Nat) (hi : i < (seqLens data).length)
    (hmin : min_seq_len ≤ (seqLens data).getD i 0)
    (hmax : (seqLens data).getD i 0 < max_seq_len) :
    List.count i
        ((create_bins data min_seq_len max_seq_len bin_size sh).map Prod.snd).flatten = 1
  ∧ (create_bins data min_seq_len max_seq_len bin_size sh).countP
      (fun p => decide (i ∈ p.2)) = 1
  ∧ ∀ p ∈ create_bins data min_seq_len max_seq_len bin_size sh, p.2.Nodup := by
  have hfindSome : ((binStarts min_seq_len max_seq_len bin_size).find?
      (binMatch bin_size ((seqLens data).getD i 0))).isSome :=
    List.find?_isSome.mpr (exists_matching_start hbs hmin hmax)
  obtain ⟨k1, hk1⟩ := Option.isSome_iff_exists.mp hfindSome
  have hcount : List.count i
      ((create_bins data min_seq_len max_seq_len bin_size sh).map Prod.snd).flatten = 1 := by
    rw [create_bins_eq, List.map_map]
    have hcomp : (Prod.snd ∘ fun k : Nat =>
        (k, sh k (assignedIdxs bin_size (binStarts min_seq_len max_seq_len bin_size)
          (seqLens data) 0 k))) =
        fun k : Nat => sh k (assignedIdxs bin_size (binStarts min_seq_len max_seq_len bin_size)
          (seqLens data) 0 k) := rfl
    rw [hcomp, List.count_flatten, List.map_map]
    have hpt : ∀ k ∈ binStarts min_seq_len max_seq_len bin_size,
        (List.count i ∘ fun k : Nat =>
          sh k (assignedIdxs bin_size (binStarts min_seq_len max_seq_len bin_size)
            (seqLens data) 0 k)) k =
        (fun k : Nat => if k = k1 then 1 else 0) k := by
      intro k _
      show List.count i (sh k (assignedIdxs bin_size (binStarts min_seq_len max_seq_len bin_size)
          (seqLens data) 0 k)) = if k = k1 then 1 else 0
      rw [(hsh k _).count_eq]
      by_cases hkk : k = k1
      · subst hkk
        rw [if_pos rfl]
        refine List.count_eq_one_of_mem (assignedIdxs_nodup _ _ _) ?_
        exact mem_assignedIdxs.mpr ⟨i, hi, by omega, hk1⟩
      · rw [if_neg hkk, List.count_eq_zero]
        intro hmem
        obtain ⟨t, ht, hit, hfind⟩ := mem_assignedIdxs.mp hmem
        have hti : t = i := by omega
        subst hti
        rw [hk1] at hfind
        exact hkk (Option.some.inj hfind).symm
    rw [List.map_congr_left hpt, sum_map_ite_eq_count,
      List.count_eq_one_of_mem (binStarts_nodup _ _ _ hbs) (List.mem_of_find?_eq_some hk1)]
  refine ⟨hcount, ?_, ?_⟩
  · have hone := countP_mem_eq_one_of_count_flatten hcount
    rw [List.countP_map] at hone
    exact hone
  · intro p hp
    rw [create_bins_eq] at hp
    obtain ⟨k, hk, hpk⟩ := List.mem_map.mp hp
    subst hpk
    exact ((hsh k _).nodup_iff).mpr (assignedIdxs_nodup _ _ _)

theorem c4_exactly_one_bin_witness :
    List.count 0
        ((create_bins scenarioData 10 40 15 idBinShuffle).map Prod.snd).flatten = 1 :=
  (c4_exactly_one_bin scenarioData 10 40 15 idBinShuffle (by omega) idBinShuffle_spec
    0 (by decide) (by decide) (by decide)).1

/-- C10: the chunking loses and duplicates nothing — the produced batches are
a permutation (as whole, unaltered lists) of the unshuffled chunks, their
flattening is a permutation of the flattened bins, and when the flattened
bins have no duplicate each index lies in exactly one batch. -/
theorem c10_chunk_conservation (bins : List (Nat × List Nat)) (batch_size : Nat)
    (shB : List (List Nat) → List (List Nat)) (hbs : 0 < batch_size)
    (hshB : IsBatchShuffle shB) :
    (create_batches bins batch_size shB).Perm
        (chunkList batch_size (bins.map Prod.snd).flatten)
  ∧ (create_batches bins batch_size shB).flatten.Perm (bins.map Prod.snd).flatten
  ∧ ((bins.map Prod.snd).flatten.Nodup →
      ∀ i ∈ (bins.map Prod.snd).flatten,
        (create_batches bins batch_size shB).countP (fun b => decide (i ∈ b)) = 1) := by
  have hperm : (create_batches bins batch_size shB).Perm
      (chunkList batch_size (bins.map Prod.snd).flatten) := hshB _
  refine ⟨hperm, ?_, ?_⟩
  · have hflat := hperm.flatten
    rw [chunkList_flatten hbs] at hflat
    exact hflat
  · intro hnd i hi
    rw [hperm.countP_eq]
    apply countP_mem_eq_one_of_count_flatten
    rw [chunkList_flatten hbs]
    exact List.count_eq_one_of_mem hnd hi

theorem c10_chunk_conservation_witness :
    (create_batches [(10, [0, 1]), (25, [2])] 2 idBatchShuffle).Perm
      (chunkList 2 (([(10, [0, 1]), (25, [2])] : List (Nat × List Nat)).map Prod.snd).flatten) :=
  (c10_chunk_conservation [(10, [0, 1]), (25, [2])] 2 idBatchShuffle (by omega)
    idBatchShuffle_spec).1

end Jespr
